import Mathlib

/-!
Shallow embedding of `normalize_labels.py` (dataset class-name normalization,
label-index remapping and integrity checking).  Python strings are modelled as
`List Char`; Python dicts are modelled as association lists or, where the keys
are known to be the consecutive integers `0..N-1` (the `remap` dict, whose keys
come from `enumerate`), as positional lists.  The filesystem is modelled as
explicit state (`Disk`), a label file as a pair of its stem and its readable
content (`none` models a file whose read raises).
-/

/-- Python whitespace characters recognised by `str.strip()` / `str.split()`
(ASCII subset: space, tab, newline, carriage return, vertical tab, form feed). -/
def pyWS (c : Char) : Bool :=
  c = ' ' || c = '\t' || c = '\n' || c = '\r' || c = Char.ofNat 11 || c = Char.ofNat 12

/-- The 26 upper-to-lower ASCII pairs used to model Python `str.lower()`. -/
def lowerPairs : List (Char × Char) :=
  [('A','a'),('B','b'),('C','c'),('D','d'),('E','e'),('F','f'),('G','g'),
   ('H','h'),('I','i'),('J','j'),('K','k'),('L','l'),('M','m'),('N','n'),
   ('O','o'),('P','p'),('Q','q'),('R','r'),('S','s'),('T','t'),('U','u'),
   ('V','v'),('W','w'),('X','x'),('Y','y'),('Z','z')]

/-- Model of Python `str.lower()` on a single character (ASCII). -/
def pyToLower (c : Char) : Char := (lowerPairs.lookup c).getD c

/-- Model of Python `str.lower()`. -/
def pyLower (l : List Char) : List Char := l.map pyToLower

/-- Model of Python `str.strip()`: drop leading and trailing whitespace. -/
def pyStrip (l : List Char) : List Char :=
  ((l.dropWhile pyWS).reverse.dropWhile pyWS).reverse

/-- Model of Python `str.replace(a, b)` for single characters `a`, `b`. -/
def replaceChar (a b : Char) (l : List Char) : List Char :=
  l.map (fun c => if c = a then b else c)

/-- Accumulator-based worker for Python `str.split()` (split on whitespace
runs, dropping empty pieces).  `acc` holds the current word reversed. -/
def splitWSAux : List Char → List Char → List (List Char)
  | [], acc => if acc = [] then [] else [acc.reverse]
  | c :: cs, acc =>
    if pyWS c then
      (if acc = [] then splitWSAux cs [] else acc.reverse :: splitWSAux cs [])
    else splitWSAux cs (c :: acc)

/-- Model of Python `str.split()` with no argument. -/
def pySplitWS (l : List Char) : List (List Char) := splitWSAux l []

/-- Model of Python `sep.join(words)` for a single-character separator. -/
def joinSep (sep : Char) : List (List Char) → List Char
  | [] => []
  | w :: ws =>
    match ws with
    | [] => w
    | _ :: _ => w ++ sep :: joinSep sep ws

/-- The core normalization of `normalize_label_name` before the alias table:
`raw.strip().lower()`, hyphens and underscores to spaces, collapse whitespace
runs (via split + join with a single space), then spaces to underscores. -/
def pyCore (l : List Char) : List Char :=
  replaceChar ' ' '_'
    (joinSep ' '
      (pySplitWS (replaceChar '_' ' ' (replaceChar '-' ' ' (pyLower (pyStrip l))))))

/-- The `safe_aliases` table of `normalize_label_name`, in source order.
Python sets of variants are modelled as lists (only membership is used). -/
def safe_aliases : List (List Char × List (List Char)) :=
  [("damaged_roof".data, ["damaged_roof".data, "damagedroof".data, "damaged__roof".data]),
   ("wall_leaking".data, ["wall_leaking".data, "wall-leaking".data, "wall__leaking".data]),
   ("broken_window".data, ["broken_window".data, "brokenwindow".data]),
   ("building".data, ["building".data]),
   ("roof".data, ["roof".data]),
   ("window".data, ["window".data]),
   ("crack".data, ["crack".data]),
   ("damage".data, ["damage".data])]

/-- Model of `normalize_label_name`: core normalization followed by the first
matching alias set (Python iterates the dict in insertion order and returns on
the first hit). -/
def normalize_label_name (raw : List Char) : List Char :=
  let name := pyCore raw
  match safe_aliases.find? (fun p => p.2.contains name) with
  | some p => p.1
  | none => name

example : normalize_label_name "Damaged Roof".data = "damaged_roof".data := by decide
example : normalize_label_name "damaged-roof".data = "damaged_roof".data := by decide
example : normalize_label_name "  Wall-Leaking ".data = "wall_leaking".data := by decide
example : normalize_label_name "Window".data = "window".data := by decide
example : normalize_label_name "FooBar  Baz".data = "foobar_baz".data := by decide

theorem lookup_mem_pairs :
    ∀ {l : List (Char × Char)} {c d : Char}, l.lookup c = some d → (c, d) ∈ l
  | [], _, _, h => by simp [List.lookup] at h
  | (k, v) :: es, c, d, h => by
      by_cases hck : c = k
      · subst hck
        simp [List.lookup] at h
        simp [h]
      · have hbk : (c == k) = false := beq_eq_false_iff_ne.mpr hck
        have h' : es.lookup c = some d := by
          simpa [List.lookup, hbk] using h
        exact List.mem_cons_of_mem _ (lookup_mem_pairs h')

theorem pyToLower_idem (c : Char) : pyToLower (pyToLower c) = pyToLower c := by
  unfold pyToLower
  cases h : lowerPairs.lookup c with
  | none => simp [h]
  | some d =>
      have hmem : (c, d) ∈ lowerPairs := lookup_mem_pairs h
      have hall : ∀ p ∈ lowerPairs, lowerPairs.lookup p.2 = none := by decide
      have hd : lowerPairs.lookup d = none := hall (c, d) hmem
      simp [h, hd]

theorem dropWhile_all_false {p : Char → Bool} :
    ∀ {l : List Char}, (∀ c ∈ l, p c = false) → l.dropWhile p = l
  | [], _ => rfl
  | c :: cs, h => by
      have hc : p c = false := h c (List.mem_cons_self _ _)
      simp [List.dropWhile, hc]

theorem pyStrip_eq_self {l : List Char} (h : ∀ c ∈ l, pyWS c = false) :
    pyStrip l = l := by
  unfold pyStrip
  rw [dropWhile_all_false h]
  rw [dropWhile_all_false (fun c hc => h c (List.mem_reverse.mp hc))]
  exact List.reverse_reverse l

theorem map_eq_self_of_fixed {f : Char → Char} :
    ∀ {l : List Char}, (∀ c ∈ l, f c = c) → l.map f = l
  | [], _ => rfl
  | c :: cs, h => by
      have hc : f c = c := h c (List.mem_cons_self _ _)
      have ih : cs.map f = cs :=
        map_eq_self_of_fixed (fun x hx => h x (List.mem_cons_of_mem _ hx))
      simp [hc, ih]

theorem replaceChar_eq_self {a b : Char} {l : List Char} (h : ∀ c ∈ l, c ≠ a) :
    replaceChar a b l = l :=
  map_eq_self_of_fixed (fun c hc => by simp [h c hc])

theorem joinSep_cons_cons (sep : Char) (w v : List Char) (vs : List (List Char)) :
    joinSep sep (w :: v :: vs) = w ++ sep :: joinSep sep (v :: vs) := rfl

theorem splitWSAux_cons (c : Char) (cs acc : List Char) :
    splitWSAux (c :: cs) acc =
      if pyWS c then
        (if acc = [] then splitWSAux cs [] else acc.reverse :: splitWSAux cs [])
      else splitWSAux cs (c :: acc) := rfl

theorem splitWSAux_nil (acc : List Char) :
    splitWSAux [] acc = if acc = [] then [] else [acc.reverse] := rfl

theorem replaceChar_joinSep {a b : Char} (hab : a ≠ b) :
    ∀ {ws : List (List Char)}, (∀ w ∈ ws, ∀ c ∈ w, c ≠ a) →
      replaceChar a b (joinSep a ws) = joinSep b ws
  | [], _ => rfl
  | [w], h => replaceChar_eq_self (h w (List.mem_cons_self _ _))
  | w :: v :: vs, h => by
      rw [joinSep_cons_cons, joinSep_cons_cons]
      have h1 : replaceChar a b w = w :=
        replaceChar_eq_self (h w (List.mem_cons_self _ _))
      have h2 : replaceChar a b (joinSep a (v :: vs)) = joinSep b (v :: vs) :=
        replaceChar_joinSep hab (fun u hu => h u (List.mem_cons_of_mem _ hu))
      unfold replaceChar at h1 h2 ⊢
      rw [List.map_append, h1, List.map_cons, h2, if_pos rfl]

theorem splitWSAux_word :
    ∀ (w rest acc : List Char), (∀ c ∈ w, pyWS c = false) →
      splitWSAux (w ++ rest) acc = splitWSAux rest (w.reverse ++ acc)
  | [], rest, acc, _ => by simp
  | c :: w', rest, acc, h => by
      have hc : pyWS c = false := h c (List.mem_cons_self _ _)
      have ih := splitWSAux_word w' rest (c :: acc)
        (fun x hx => h x (List.mem_cons_of_mem _ hx))
      rw [List.cons_append, splitWSAux_cons, hc]
      simp only [Bool.false_eq_true, if_false]
      rw [ih]
      simp

theorem pySplitWS_joinSep :
    ∀ {ws : List (List Char)},
      (∀ w ∈ ws, w ≠ [] ∧ ∀ c ∈ w, pyWS c = false) →
      pySplitWS (joinSep ' ' ws) = ws
  | [], _ => rfl
  | [w], h => by
      obtain ⟨hne, hw⟩ := h w (List.mem_cons_self _ _)
      show splitWSAux (joinSep ' ' [w]) [] = [w]
      have hj : joinSep ' ' [w] = w := rfl
      rw [hj]
      have hstep := splitWSAux_word w [] [] hw
      simp only [List.append_nil] at hstep
      rw [hstep, splitWSAux_nil]
      simp [hne]
  | w :: v :: vs, h => by
      obtain ⟨hne, hw⟩ := h w (List.mem_cons_self _ _)
      show splitWSAux (joinSep ' ' (w :: v :: vs)) [] = w :: v :: vs
      rw [joinSep_cons_cons]
      rw [splitWSAux_word w (' ' :: joinSep ' ' (v :: vs)) [] hw]
      rw [splitWSAux_cons]
      have hsp : pyWS ' ' = true := by decide
      rw [hsp]
      have hra : ¬(w.reverse ++ [] = []) := by simpa using hne
      rw [if_pos rfl, if_neg hra]
      have ih : splitWSAux (joinSep ' ' (v :: vs)) [] = v :: vs :=
        pySplitWS_joinSep (fun u hu => h u (List.mem_cons_of_mem _ hu))
      rw [ih]
      simp

theorem splitWSAux_words :
    ∀ (l acc : List Char), (∀ c ∈ acc, pyWS c = false) →
      ∀ w ∈ splitWSAux l acc,
        w ≠ [] ∧ ∀ c ∈ w, pyWS c = false ∧ (c ∈ l ∨ c ∈ acc)
  | [], acc, hacc, w, hw => by
      rw [splitWSAux_nil] at hw
      by_cases ha : acc = []
      · simp [ha] at hw
      · simp only [ha, if_false, List.mem_singleton] at hw
        subst hw
        refine ⟨by simpa using ha, fun c hc => ?_⟩
        have hc' : c ∈ acc := List.mem_reverse.mp hc
        exact ⟨hacc c hc', Or.inr hc'⟩
  | a :: cs, acc, hacc, w, hw => by
      rw [splitWSAux_cons] at hw
      by_cases hws : pyWS a
      · rw [if_pos hws] at hw
        by_cases ha : acc = []
        · rw [if_pos ha] at hw
          obtain ⟨hne, hrest⟩ := splitWSAux_words cs [] (by simp) w hw
          refine ⟨hne, fun c hc => ?_⟩
          obtain ⟨h1, h2⟩ := hrest c hc
          exact ⟨h1, by rcases h2 with h2 | h2 <;> simp_all⟩
        · rw [if_neg ha] at hw
          rcases List.mem_cons.mp hw with hw | hw
          · subst hw
            refine ⟨by simpa using ha, fun c hc => ?_⟩
            have hc' : c ∈ acc := List.mem_reverse.mp hc
            exact ⟨hacc c hc', Or.inr hc'⟩
          · obtain ⟨hne, hrest⟩ := splitWSAux_words cs [] (by simp) w hw
            refine ⟨hne, fun c hc => ?_⟩
            obtain ⟨h1, h2⟩ := hrest c hc
            exact ⟨h1, by rcases h2 with h2 | h2 <;> simp_all⟩
      · rw [if_neg hws] at hw
        have hacc' : ∀ c ∈ a :: acc, pyWS c = false := by
          intro c hc
          rcases List.mem_cons.mp hc with hc | hc
          · subst hc; simpa using hws
          · exact hacc c hc
        obtain ⟨hne, hrest⟩ := splitWSAux_words cs (a :: acc) hacc' w hw
        refine ⟨hne, fun c hc => ?_⟩
        obtain ⟨h1, h2⟩ := hrest c hc
        refine ⟨h1, ?_⟩
        rcases h2 with h2 | h2
        · exact Or.inl (List.mem_cons_of_mem _ h2)
        · rcases List.mem_cons.mp h2 with h2 | h2
          · exact Or.inl (by simp [h2])
          · exact Or.inr h2

theorem mem_joinSep :
    ∀ {sep : Char} {ws : List (List Char)} {c : Char},
      c ∈ joinSep sep ws → c = sep ∨ ∃ w ∈ ws, c ∈ w
  | _, [], _, h => by simp [joinSep] at h
  | sep, [w], c, h => Or.inr ⟨w, List.mem_cons_self _ _, h⟩
  | sep, w :: v :: vs, c, h => by
      rw [joinSep_cons_cons] at h
      rcases List.mem_append.mp h with h | h
      · exact Or.inr ⟨w, List.mem_cons_self _ _, h⟩
      · rcases List.mem_cons.mp h with h | h
        · exact Or.inl h
        · rcases mem_joinSep h with h | ⟨u, hu, hc⟩
          · exact Or.inl h
          · exact Or.inr ⟨u, List.mem_cons_of_mem _ hu, hc⟩

theorem mem_s2_props {l : List Char} {c : Char}
    (hc : c ∈ replaceChar '_' ' ' (replaceChar '-' ' ' (pyLower (pyStrip l)))) :
    c = ' ' ∨ (c ≠ '-' ∧ c ≠ '_' ∧ pyToLower c = c) := by
  by_cases hsp : c = ' '
  · exact Or.inl hsp
  · refine Or.inr ?_
    unfold replaceChar at hc
    obtain ⟨y, hy, hcy⟩ := List.mem_map.mp hc
    by_cases hy' : y = '_'
    · exact absurd hcy.symm (by simp [hy', hsp])
    · rw [if_neg hy'] at hcy
      subst hcy
      obtain ⟨z, hz, hyz⟩ := List.mem_map.mp hy
      by_cases hz' : z = '-'
      · exact absurd hyz.symm (by simp [hz', hsp])
      · rw [if_neg hz'] at hyz
        subst hyz
        obtain ⟨u, _, huz⟩ := List.mem_map.mp hz
        subst huz
        exact ⟨hz', hy', pyToLower_idem u⟩

theorem pyCore_words (l : List Char) :
    ∃ ws, pyCore l = joinSep '_' ws ∧
      ∀ w ∈ ws, w ≠ [] ∧
        ∀ c ∈ w, pyWS c = false ∧ c ≠ '-' ∧ c ≠ '_' ∧ pyToLower c = c := by
  set s2 := replaceChar '_' ' ' (replaceChar '-' ' ' (pyLower (pyStrip l))) with hs2
  have hwords := splitWSAux_words s2 [] (by simp)
  refine ⟨pySplitWS s2, ?_, ?_⟩
  · show replaceChar ' ' '_' (joinSep ' ' (pySplitWS s2)) = joinSep '_' (pySplitWS s2)
    apply replaceChar_joinSep (by decide)
    intro w hw c hc
    have := (hwords w hw).2 c hc
    intro hceq
    rw [hceq] at this
    exact absurd this.1 (by decide)
  · intro w hw
    obtain ⟨hne, hrest⟩ := hwords w hw
    refine ⟨hne, fun c hc => ?_⟩
    obtain ⟨h1, h2⟩ := hrest c hc
    have hmem : c ∈ s2 := by
      rcases h2 with h2 | h2
      · exact h2
      · simp at h2
    rcases mem_s2_props (hs2 ▸ hmem) with h3 | h3
    · rw [h3] at h1
      exact absurd h1 (by decide)
    · exact ⟨h1, h3⟩

theorem pyCore_idem (l : List Char) : pyCore (pyCore l) = pyCore l := by
  obtain ⟨ws, hout, hprops⟩ := pyCore_words l
  rw [hout]
  have hnws : ∀ c ∈ joinSep '_' ws, pyWS c = false := by
    intro c hc
    rcases mem_joinSep hc with hc | ⟨w, hw, hc⟩
    · rw [hc]; decide
    · exact ((hprops w hw).2 c hc).1
  have hfix : ∀ c ∈ joinSep '_' ws, pyToLower c = c := by
    intro c hc
    rcases mem_joinSep hc with hc | ⟨w, hw, hc⟩
    · rw [hc]; decide
    · exact ((hprops w hw).2 c hc).2.2.2
  have hnh : ∀ c ∈ joinSep '_' ws, c ≠ '-' := by
    intro c hc
    rcases mem_joinSep hc with hc | ⟨w, hw, hc⟩
    · rw [hc]; decide
    · exact ((hprops w hw).2 c hc).2.1
  show replaceChar ' ' '_'
      (joinSep ' '
        (pySplitWS (replaceChar '_' ' '
          (replaceChar '-' ' ' (pyLower (pyStrip (joinSep '_' ws))))))) =
    joinSep '_' ws
  rw [pyStrip_eq_self hnws]
  have hlow : pyLower (joinSep '_' ws) = joinSep '_' ws := map_eq_self_of_fixed hfix
  rw [hlow]
  rw [replaceChar_eq_self hnh]
  have hrep : replaceChar '_' ' ' (joinSep '_' ws) = joinSep ' ' ws :=
    replaceChar_joinSep (by decide) (fun w hw c hc => ((hprops w hw).2 c hc).2.2.1)
  rw [hrep]
  have hsplit : pySplitWS (joinSep ' ' ws) = ws :=
    pySplitWS_joinSep (fun w hw =>
      ⟨(hprops w hw).1, fun c hc => ((hprops w hw).2 c hc).1⟩)
  rw [hsplit]
  apply replaceChar_joinSep (by decide)
  intro w hw c hc hceq
  have := ((hprops w hw).2 c hc).1
  rw [hceq] at this
  exact absurd this (by decide)

theorem normalize_fixes_alias :
    ∀ q ∈ safe_aliases, normalize_label_name q.1 = q.1 := by decide

theorem normalize_result (x : List Char) :
    (∃ p ∈ safe_aliases, normalize_label_name x = p.1) ∨
      (normalize_label_name x = pyCore x ∧
        safe_aliases.find? (fun p => p.2.contains (pyCore x)) = none) := by
  cases hf : safe_aliases.find? (fun p => p.2.contains (pyCore x)) with
  | some p =>
      refine Or.inl ⟨p, List.mem_of_find?_eq_some hf, ?_⟩
      unfold normalize_label_name
      simp only [hf]
  | none =>
      refine Or.inr ⟨?_, rfl⟩
      unfold normalize_label_name
      simp only [hf]

theorem normalize_label_name_idem (x : List Char) :
    normalize_label_name (normalize_label_name x) = normalize_label_name x := by
  rcases normalize_result x with ⟨p, hp, hx⟩ | ⟨hx, hnone⟩
  · rw [hx]
    exact normalize_fixes_alias p hp
  · rw [hx]
    show normalize_label_name (pyCore x) = pyCore x
    unfold normalize_label_name
    simp only [pyCore_idem, hnone]

/-- C6: for every input string x, canonicalization is idempotent:
canonicalize(canonicalize(x)) equals canonicalize(x). -/
theorem claim_C6_canonicalize_idempotent (x : List Char) :
    normalize_label_name (normalize_label_name x) = normalize_label_name x :=
  normalize_label_name_idem x

/-- First index of `x` in a list of names (the value the `seen` dict holds for
a key, and the index of the first occurrence of a canonical name). -/
def firstIdx (x : List Char) : List (List Char) → Option Nat
  | [] => none
  | y :: ys => if y = x then some 0 else (firstIdx x ys).map (· + 1)

/-- Worker for `build_names_and_remap`: the loop body of the source, with the
`seen` dict as an association list, `new_names` accumulated in order, and the
`remap` dict as a positional list (its keys are the consecutive old indices
produced by `enumerate`). -/
def buildAux :
    List (List Char × Nat) → List (List Char) → List Nat → List (List Char) →
      List (List Char × Nat) × List (List Char) × List Nat
  | seen, ns, rm, [] => (seen, ns, rm)
  | seen, ns, rm, name :: rest =>
    let norm := normalize_label_name name
    match seen.lookup norm with
    | some j => buildAux seen ns (rm ++ [j]) rest
    | none =>
        buildAux (seen ++ [(norm, ns.length)]) (ns ++ [norm]) (rm ++ [ns.length]) rest

/-- Model of `build_names_and_remap`: returns `(new_names, remap)`; the remap
dict `old index -> new index` is modelled positionally (entry `i` of the list
is the value for key `i`). -/
def build_names_and_remap (old_names : List (List Char)) :
    List (List Char) × List Nat :=
  let r := buildAux [] [] [] old_names
  (r.2.1, r.2.2)

example :
    build_names_and_remap ["Damaged Roof".data, "damaged-roof".data, "Window".data] =
      (["damaged_roof".data, "window".data], [0, 0, 1]) := by decide

example :
    build_names_and_remap ["crack".data, "crack".data, "window".data] =
      (["crack".data, "window".data], [0, 0, 1]) := by decide

theorem buildAux_nil (seen : List (List Char × Nat)) (ns : List (List Char)) (rm : List Nat) :
    buildAux seen ns rm [] = (seen, ns, rm) := rfl

theorem buildAux_cons (seen : List (List Char × Nat)) (ns : List (List Char))
    (rm : List Nat) (name : List Char) (rest : List (List Char)) :
    buildAux seen ns rm (name :: rest) =
      match seen.lookup (normalize_label_name name) with
      | some j => buildAux seen ns (rm ++ [j]) rest
      | none =>
          buildAux (seen ++ [(normalize_label_name name, ns.length)])
            (ns ++ [normalize_label_name name]) (rm ++ [ns.length]) rest := rfl

theorem firstIdx_cons (x y : List Char) (ys : List (List Char)) :
    firstIdx x (y :: ys) =
      if y = x then some 0 else (firstIdx x ys).map (· + 1) := rfl

theorem firstIdx_eq_none_iff {x : List Char} :
    ∀ {l : List (List Char)}, firstIdx x l = none ↔ x ∉ l
  | [] => by simp [firstIdx]
  | y :: ys => by
      rw [firstIdx_cons]
      by_cases hyx : y = x
      · simp [hyx]
      · simp only [hyx, if_false, Option.map_eq_none']
        rw [firstIdx_eq_none_iff]
        simp [Ne.symm hyx]

theorem firstIdx_lt_length {x : List Char} :
    ∀ {l : List (List Char)} {j : Nat}, firstIdx x l = some j → j < l.length
  | [], _, h => by simp [firstIdx] at h
  | y :: ys, j, h => by
      rw [firstIdx_cons] at h
      by_cases hyx : y = x
      · rw [if_pos hyx] at h
        cases h
        simp
      · simp only [hyx, if_false, Option.map_eq_some'] at h
        obtain ⟨a, ha, haj⟩ := h
        have := firstIdx_lt_length ha
        simp only [List.length_cons]
        omega

theorem mem_of_firstIdx {x : List Char} {l : List (List Char)} {j : Nat}
    (h : firstIdx x l = some j) : x ∈ l := by
  by_contra hx
  rw [← firstIdx_eq_none_iff] at hx
  rw [hx] at h
  exact Option.noConfusion h

theorem firstIdx_append_of_mem {x : List Char} :
    ∀ {l : List (List Char)}, x ∈ l → ∀ (l' : List (List Char)),
      firstIdx x (l ++ l') = firstIdx x l
  | [], h, _ => absurd h (List.not_mem_nil x)
  | y :: ys, h, l' => by
      rw [List.cons_append, firstIdx_cons, firstIdx_cons]
      by_cases hyx : y = x
      · simp [hyx]
      · have hxy : x ∈ ys := by
          rcases List.mem_cons.mp h with h | h
          · exact absurd h.symm hyx
          · exact h
        rw [if_neg hyx, if_neg hyx, firstIdx_append_of_mem hxy l']

theorem firstIdx_append_of_not_mem {x : List Char} :
    ∀ {l : List (List Char)}, x ∉ l → ∀ (l' : List (List Char)),
      firstIdx x (l ++ l') = (firstIdx x l').map (· + l.length)
  | [], _, l' => by
      simp only [List.nil_append, List.length_nil]
      cases firstIdx x l' <;> simp
  | y :: ys, h, l' => by
      have hyx : y ≠ x := fun hh => h (by simp [hh])
      have hys : x ∉ ys := fun hh => h (List.mem_cons_of_mem _ hh)
      rw [List.cons_append, firstIdx_cons, if_neg hyx,
        firstIdx_append_of_not_mem hys l']
      cases firstIdx x l' <;> simp <;> omega

theorem firstIdx_append_self {x : List Char} {l : List (List Char)} (h : x ∉ l) :
    firstIdx x (l ++ [x]) = some l.length := by
  rw [firstIdx_append_of_not_mem h]
  simp [firstIdx]

theorem firstIdx_append_single_ne {x y : List Char} {l : List (List Char)}
    (h : x ∉ l) (hxy : y ≠ x) : firstIdx x (l ++ [y]) = none := by
  rw [firstIdx_append_of_not_mem h]
  simp [firstIdx, hxy]

theorem firstIdx_nodup_get {l : List (List Char)} (hnd : l.Nodup) :
    ∀ {j : Nat} {x : List Char}, l.get? j = some x → firstIdx x l = some j := by
  induction l with
  | nil => intro j x h; simp at h
  | cons y ys ih =>
      intro j x h
      cases j with
      | zero =>
          simp only [List.get?_cons_zero, Option.some.injEq] at h
          subst h
          simp [firstIdx_cons]
      | succ j =>
          simp only [List.get?_cons_succ] at h
          have hx : x ∈ ys := List.get?_mem h
          have hyx : y ≠ x := by
            intro hh
            subst hh
            exact (List.nodup_cons.mp hnd).1 hx
          rw [firstIdx_cons, if_neg hyx, ih (List.nodup_cons.mp hnd).2 h]
          rfl

theorem lookup_append_single (l : List (List Char × Nat)) (k : List Char) (v : Nat)
    (s : List Char) :
    (l ++ [(k, v)]).lookup s =
      match l.lookup s with
      | some j => some j
      | none => if s = k then some v else none := by
  induction l with
  | nil =>
      by_cases hsk : s = k
      · simp [List.lookup, hsk]
      · simp [List.lookup, beq_eq_false_iff_ne.mpr hsk, hsk]
  | cons p es ih =>
      obtain ⟨a, b⟩ := p
      by_cases hsa : s = a
      · subst hsa
        simp [List.lookup]
      · have hb : (s == a) = false := beq_eq_false_iff_ne.mpr hsa
        simp only [List.cons_append, List.lookup, hb]
        exact ih

/-- Loop invariant of `build_names_and_remap`: `mapped` is the list of
normalized names already consumed, `seen` agrees with first indices in
`new_names`, `remap` holds one in-range entry per consumed name, the image of
`remap` covers every new index, and `new_names` is duplicate-free, consists of
canonicalization fixed points, and lists canonical names in order of first
appearance in `mapped`. -/
def BuildInv (seen : List (List Char × Nat)) (ns : List (List Char))
    (rm : List Nat) (mapped : List (List Char)) : Prop :=
  (∀ s, seen.lookup s = firstIdx s ns) ∧
  ns.Nodup ∧
  (∀ x ∈ ns, normalize_label_name x = x) ∧
  rm.length = mapped.length ∧
  (∀ k x, mapped.get? k = some x → rm.get? k = firstIdx x ns) ∧
  (∀ j, j < ns.length → ∃ k, rm.get? k = some j) ∧
  ns.length ≤ rm.length ∧
  (∀ x ∈ ns, x ∈ mapped) ∧
  (∀ x ∈ mapped, x ∈ ns) ∧
  (∀ j1 j2 x1 x2, j1 < j2 → ns.get? j1 = some x1 → ns.get? j2 = some x2 →
    ∃ a b, firstIdx x1 mapped = some a ∧ firstIdx x2 mapped = some b ∧ a < b)

theorem BuildInv.dup {seen : List (List Char × Nat)} {ns : List (List Char)}
    {rm : List Nat} {mapped : List (List Char)} {norm : List Char} {j : Nat}
    (hinv : BuildInv seen ns rm mapped) (hfi : firstIdx norm ns = some j) :
    BuildInv seen ns (rm ++ [j]) (mapped ++ [norm]) := by
  obtain ⟨h1, h2, h3, h4, h5, h6, h7, h8, h9, h10⟩ := hinv
  have hmem : norm ∈ ns := mem_of_firstIdx hfi
  refine ⟨h1, h2, h3, by simp [h4], ?_, ?_, ?_, ?_, ?_, ?_⟩
  · intro k x hx
    rcases Nat.lt_trichotomy k mapped.length with hk | hk | hk
    · rw [List.get?_append hk] at hx
      rw [List.get?_append (h4 ▸ hk)]
      exact h5 k x hx
    · rw [hk, List.get?_concat_length] at hx
      cases hx
      rw [hk, ← h4, List.get?_concat_length]
      exact hfi.symm
    · exfalso
      have : (mapped ++ [norm]).get? k = none := by
        rw [List.get?_eq_none]
        simp only [List.length_append, List.length_singleton]
        omega
      rw [this] at hx
      exact Option.noConfusion hx
  · intro i hi
    obtain ⟨k, hk⟩ := h6 i hi
    have hklt : k < rm.length := by
      rcases List.get?_eq_some.mp hk with ⟨h, _⟩
      exact h
    exact ⟨k, by rw [List.get?_append hklt]; exact hk⟩
  · simp only [List.length_append, List.length_singleton]
    omega
  · intro x hx
    exact List.mem_append_left _ (h8 x hx)
  · intro x hx
    rcases List.mem_append.mp hx with hx | hx
    · exact h9 x hx
    · rw [List.mem_singleton.mp hx]
      exact hmem
  · intro j1 j2 x1 x2 hlt hg1 hg2
    obtain ⟨a, b, ha, hb, hab⟩ := h10 j1 j2 x1 x2 hlt hg1 hg2
    have hm1 : x1 ∈ mapped := h8 x1 (List.get?_mem hg1)
    have hm2 : x2 ∈ mapped := h8 x2 (List.get?_mem hg2)
    exact ⟨a, b, by rw [firstIdx_append_of_mem hm1]; exact ha,
      by rw [firstIdx_append_of_mem hm2]; exact hb, hab⟩

theorem BuildInv.fresh {seen : List (List Char × Nat)} {ns : List (List Char)}
    {rm : List Nat} {mapped : List (List Char)} {norm : List Char}
    (hinv : BuildInv seen ns rm mapped) (hfi : firstIdx norm ns = none)
    (hnorm : normalize_label_name norm = norm) :
    BuildInv (seen ++ [(norm, ns.length)]) (ns ++ [norm])
      (rm ++ [ns.length]) (mapped ++ [norm]) := by
  obtain ⟨h1, h2, h3, h4, h5, h6, h7, h8, h9, h10⟩ := hinv
  have hnotns : norm ∉ ns := firstIdx_eq_none_iff.mp hfi
  have hnotmapped : norm ∉ mapped := fun h => hnotns (h9 norm h)
  refine ⟨?_, ?_, ?_, by simp [h4], ?_, ?_, ?_, ?_, ?_, ?_⟩
  · intro s
    rw [lookup_append_single]
    cases hls : seen.lookup s with
    | some t =>
        have hft : firstIdx s ns = some t := by rw [← h1]; exact hls
        have : s ∈ ns := mem_of_firstIdx hft
        rw [firstIdx_append_of_mem this, hft]
    | none =>
        have hfn : firstIdx s ns = none := by rw [← h1]; exact hls
        have hsn : s ∉ ns := firstIdx_eq_none_iff.mp hfn
        by_cases hs : s = norm
        · subst hs
          rw [firstIdx_append_self hsn, if_pos rfl]
        · rw [firstIdx_append_single_ne hsn (Ne.symm hs), if_neg hs]
  · exact List.Nodup.append h2 (List.nodup_singleton _)
      (fun x hx hx' => hnotns (by rw [List.mem_singleton.mp hx'] at hx; exact hx))
  · intro x hx
    rcases List.mem_append.mp hx with hx | hx
    · exact h3 x hx
    · rw [List.mem_singleton.mp hx]
      exact hnorm
  · intro k x hx
    rcases Nat.lt_trichotomy k mapped.length with hk | hk | hk
    · rw [List.get?_append hk] at hx
      rw [List.get?_append (h4 ▸ hk)]
      have hxns : x ∈ ns := h9 x (List.get?_mem hx)
      rw [firstIdx_append_of_mem hxns]
      exact h5 k x hx
    · rw [hk, List.get?_concat_length] at hx
      cases hx
      rw [hk, ← h4, List.get?_concat_length]
      rw [firstIdx_append_self hnotns]
    · exfalso
      have : (mapped ++ [norm]).get? k = none := by
        rw [List.get?_eq_none]
        simp only [List.length_append, List.length_singleton]
        omega
      rw [this] at hx
      exact Option.noConfusion hx
  · intro i hi
    simp only [List.length_append, List.length_singleton] at hi
    rcases Nat.lt_or_ge i ns.length with hi' | hi'
    · obtain ⟨k, hk⟩ := h6 i hi'
      have hklt : k < rm.length := by
        rcases List.get?_eq_some.mp hk with ⟨h, _⟩
        exact h
      exact ⟨k, by rw [List.get?_append hklt]; exact hk⟩
    · have : i = ns.length := by omega
      subst this
      exact ⟨rm.length, by rw [List.get?_concat_length]⟩
  · simp only [List.length_append, List.length_singleton]
    omega
  · intro x hx
    rcases List.mem_append.mp hx with hx | hx
    · exact List.mem_append_left _ (h8 x hx)
    · rw [List.mem_singleton.mp hx]
      exact List.mem_append_right _ (List.mem_singleton_self _)
  · intro x hx
    rcases List.mem_append.mp hx with hx | hx
    · exact List.mem_append_left _ (h9 x hx)
    · exact List.mem_append_right _ hx
  · intro j1 j2 x1 x2 hlt hg1 hg2
    rcases Nat.lt_trichotomy j2 ns.length with hj2 | hj2 | hj2
    · rw [List.get?_append hj2] at hg2
      rw [List.get?_append (Nat.lt_trans hlt hj2)] at hg1
      obtain ⟨a, b, ha, hb, hab⟩ := h10 j1 j2 x1 x2 hlt hg1 hg2
      have hm1 : x1 ∈ mapped := h8 x1 (List.get?_mem hg1)
      have hm2 : x2 ∈ mapped := h8 x2 (List.get?_mem hg2)
      exact ⟨a, b, by rw [firstIdx_append_of_mem hm1]; exact ha,
        by rw [firstIdx_append_of_mem hm2]; exact hb, hab⟩
    · rw [hj2, List.get?_concat_length] at hg2
      cases hg2
      rw [List.get?_append (hj2 ▸ hlt)] at hg1
      have hm1 : x1 ∈ mapped := h8 x1 (List.get?_mem hg1)
      have hfim : firstIdx x1 mapped ≠ none :=
        fun h => (firstIdx_eq_none_iff.mp h) hm1
      cases hfa : firstIdx x1 mapped with
      | none => exact absurd hfa hfim
      | some a =>
          refine ⟨a, mapped.length, ?_, ?_, firstIdx_lt_length hfa⟩
          · rw [firstIdx_append_of_mem hm1]
            exact hfa
          · exact firstIdx_append_self hnotmapped
    · exfalso
      have : (ns ++ [norm]).get? j2 = none := by
        rw [List.get?_eq_none]
        simp only [List.length_append, List.length_singleton]
        omega
      rw [this] at hg2
      exact Option.noConfusion hg2

theorem buildAux_inv :
    ∀ (names : List (List Char)) (seen : List (List Char × Nat))
      (ns : List (List Char)) (rm : List Nat) (mapped : List (List Char)),
      BuildInv seen ns rm mapped →
      BuildInv (buildAux seen ns rm names).1 (buildAux seen ns rm names).2.1
        (buildAux seen ns rm names).2.2
        (mapped ++ names.map normalize_label_name)
  | [], seen, ns, rm, mapped, hinv => by
      rw [buildAux_nil]
      simpa using hinv
  | name :: rest, seen, ns, rm, mapped, hinv => by
      rw [buildAux_cons]
      have heq : (mapped ++ [normalize_label_name name]) ++
          rest.map normalize_label_name =
          mapped ++ (name :: rest).map normalize_label_name := by
        simp
      cases hl : seen.lookup (normalize_label_name name) with
      | some j =>
          have hfi : firstIdx (normalize_label_name name) ns = some j := by
            rw [← hinv.1]; exact hl
          have := buildAux_inv rest seen ns (rm ++ [j])
            (mapped ++ [normalize_label_name name]) (hinv.dup hfi)
          rw [heq] at this
          exact this
      | none =>
          have hfi : firstIdx (normalize_label_name name) ns = none := by
            rw [← hinv.1]; exact hl
          have := buildAux_inv rest (seen ++ [(normalize_label_name name, ns.length)])
            (ns ++ [normalize_label_name name]) (rm ++ [ns.length])
            (mapped ++ [normalize_label_name name])
            (hinv.fresh hfi (normalize_label_name_idem name))
          rw [heq] at this
          exact this

theorem BuildInv.init : BuildInv [] [] [] [] :=
  ⟨fun _ => rfl, List.nodup_nil, fun x hx => absurd hx (List.not_mem_nil x), rfl,
   fun k x hx => by simp at hx,
   fun j hj => by simp at hj,
   Nat.le_refl 0,
   fun x hx => absurd hx (List.not_mem_nil x),
   fun x hx => absurd hx (List.not_mem_nil x),
   fun j1 j2 x1 x2 _ hg1 _ => by simp at hg1⟩

theorem build_inv (old_names : List (List Char)) :
    BuildInv (buildAux [] [] [] old_names).1 (build_names_and_remap old_names).1
      (build_names_and_remap old_names).2
      (old_names.map normalize_label_name) := by
  have := buildAux_inv old_names [] [] [] [] BuildInv.init
  simpa [build_names_and_remap] using this

/-- C3: for every ordered sequence of raw class names, build_names_and_remap
returns a remap table defined on exactly the old indices [0, N) (modelled as a
positional list of length N) whose entries all lie below M and whose range
covers all of [0, M) with no gaps, where M is the length of the returned
canonical taxonomy; moreover M is at most N, the taxonomy has no duplicates,
and its order is the order of first appearance of each canonical name when
scanning old indices in ascending order. -/
theorem claim_C3_build_remap_correct (old_names : List (List Char)) :
    (build_names_and_remap old_names).2.length = old_names.length ∧
    (∀ k j, (build_names_and_remap old_names).2.get? k = some j →
      j < (build_names_and_remap old_names).1.length) ∧
    (∀ j, j < (build_names_and_remap old_names).1.length →
      ∃ k, (build_names_and_remap old_names).2.get? k = some j) ∧
    (build_names_and_remap old_names).1.length ≤ old_names.length ∧
    (build_names_and_remap old_names).1.Nodup ∧
    (∀ j1 j2 x1 x2, j1 < j2 →
      (build_names_and_remap old_names).1.get? j1 = some x1 →
      (build_names_and_remap old_names).1.get? j2 = some x2 →
      ∃ a b, firstIdx x1 (old_names.map normalize_label_name) = some a ∧
        firstIdx x2 (old_names.map normalize_label_name) = some b ∧ a < b) := by
  obtain ⟨h1, h2, h3, h4, h5, h6, h7, h8, h9, h10⟩ := build_inv old_names
  have hlen : (build_names_and_remap old_names).2.length = old_names.length := by
    rw [h4]
    exact List.length_map old_names _
  refine ⟨hlen, ?_, h6, ?_, h2, h10⟩
  · intro k j hkj
    have hklt : k < (build_names_and_remap old_names).2.length := by
      rcases List.get?_eq_some.mp hkj with ⟨h, _⟩
      exact h
    have hkm : k < (old_names.map normalize_label_name).length := by
      rw [← h4]
      exact hklt
    obtain ⟨x, hx⟩ : ∃ x, (old_names.map normalize_label_name).get? k = some x := by
      rcases List.get?_eq_get hkm with h
      exact ⟨_, h⟩
    have := h5 k x hx
    rw [hkj] at this
    exact firstIdx_lt_length this.symm
  · rw [← hlen]
    exact h7

theorem claim_C3_build_remap_correct_witness :
    (build_names_and_remap
      ["Damaged Roof".data, "damaged-roof".data, "Window".data]).2.length = 3 ∧
    (∃ k, (build_names_and_remap
      ["Damaged Roof".data, "damaged-roof".data, "Window".data]).2.get? k = some 1) ∧
    (0 : Nat) <
      (build_names_and_remap
        ["Damaged Roof".data, "damaged-roof".data, "Window".data]).1.length := by
  have h := claim_C3_build_remap_correct
    ["Damaged Roof".data, "damaged-roof".data, "Window".data]
  refine ⟨by rw [h.1]; rfl, h.2.2.1 1 (by decide), h.2.1 0 0 (by decide)⟩

/-- Integrity issues (the data model of the report; the code appends formatted
strings carrying exactly this information). -/
inductive Issue
  | MissingLabel (stem : List Char)
  | MissingImage (stem : List Char)
  | UnparsableClassId (file : List Char) (tok : List Char)
  | UnmappedClassId (file : List Char) (id : Int)
  | ReadFailure (file : List Char)
deriving DecidableEq

/-- Decimal value of an ASCII digit character, as an association table. -/
def digitPairs : List (Char × Nat) :=
  [('0', 0), ('1', 1), ('2', 2), ('3', 3), ('4', 4),
   ('5', 5), ('6', 6), ('7', 7), ('8', 8), ('9', 9)]

def digitVal (c : Char) : Option Nat := digitPairs.lookup c

def parseDigits (l : List Char) : Option Nat :=
  if l = [] then none
  else l.foldl (fun acc c => acc.bind fun a => (digitVal c).map fun d => a * 10 + d)
    (some 0)

/-- Model of Python int() applied to a whitespace-split token: optional sign
followed by one or more decimal digits.  (Python additionally strips
whitespace, which cannot occur in a split token, and accepts interior
underscores, which this dataset never uses.) -/
def pyParseInt : List Char → Option Int
  | '-' :: rest => (parseDigits rest).map (fun n => -(n : Int))
  | '+' :: rest => (parseDigits rest).map (fun n => (n : Int))
  | l => (parseDigits l).map (fun n => (n : Int))

/-- ASCII digit character for a value below ten ('9' as the out-of-range
filler, never reached on n % 10). -/
def digitChar (n : Nat) : Char :=
  (['0', '1', '2', '3', '4', '5', '6', '7', '8', '9'].getD n '9')

def natToCharsAux (fuel : Nat) (n : Nat) : List Char :=
  match fuel with
  | 0 => []
  | fuel + 1 =>
    if n < 10 then [digitChar n]
    else natToCharsAux fuel (n / 10) ++ [digitChar (n % 10)]

/-- Model of Python str() on a natural number (remap values are new indices,
hence non-negative); the fuel n+1 always dominates the digit count. -/
def natToChars (n : Nat) : List Char := natToCharsAux (n + 1) n

/-- Model of str.splitlines() on newline-separated content; the rewriter only
applies it to stripped nonempty content, where the two notions agree. -/
def splitOnNl : List Char → List (List Char)
  | [] => [[]]
  | c :: cs =>
    if c = '\n' then [] :: splitOnNl cs
    else
      match splitOnNl cs with
      | [] => [[c]]
      | w :: ws => (c :: w) :: ws

structure LinesResult where
  new_lines : List (List Char)
  changed : Bool
  issues : List Issue
deriving DecidableEq

/-- The per-line loop of process_split (source lines 150-168): strip and split
the line into tokens; a token-less line is dropped silently; parse the first
token as an integer id (failure records UnparsableClassId and drops the line);
check membership in the remap dict, whose keys are exactly 0..N-1 (failure
records UnmappedClassId and drops the line); substitute the remapped id for
the first token only when it differs, setting the changed flag; keep the line
as the space-join of its tokens. -/
def rewriteLines (remap : List Nat) (fname : List Char) :
    List (List Char) → LinesResult
  | [] => ⟨[], false, []⟩
  | ln :: rest =>
    let r := rewriteLines remap fname rest
    match pySplitWS (pyStrip ln) with
    | [] => r
    | p0 :: ptail =>
      match pyParseInt p0 with
      | none => ⟨r.new_lines, r.changed, Issue.UnparsableClassId fname p0 :: r.issues⟩
      | some old_idx =>
        if hin : 0 ≤ old_idx ∧ old_idx.toNat < remap.length then
          let new_idx := remap.get ⟨old_idx.toNat, hin.2⟩
          if (new_idx : Int) = old_idx then
            ⟨joinSep ' ' (p0 :: ptail) :: r.new_lines, r.changed, r.issues⟩
          else
            ⟨joinSep ' ' (natToChars new_idx :: ptail) :: r.new_lines, true, r.issues⟩
        else ⟨r.new_lines, r.changed, Issue.UnmappedClassId fname old_idx :: r.issues⟩

structure FileResult where
  newContent : Option (List Char)
  wrote : Bool
  emptyFile : Bool
  issues : List Issue
deriving DecidableEq

/-- The per-file body of process_split (source lines 140-172): a file is a
pair of its stem and its readable content; `none` content models a read that
raises, caught and recorded as ReadFailure with the file left untouched; blank
content (empty after strip) is counted as empty and skipped; otherwise the
lines are rewritten and the file is overwritten (content replaced by the new
lines joined with newlines plus a trailing newline) only when applying and at
least one class id changed. -/
def processFile (remap : List Nat) (apply : Bool)
    (f : List Char × Option (List Char)) : FileResult :=
  match f.2 with
  | none => ⟨none, false, false, [Issue.ReadFailure f.1]⟩
  | some raw =>
    if pyStrip raw = [] then ⟨some raw, false, true, []⟩
    else
      let r := rewriteLines remap f.1 (splitOnNl (pyStrip raw))
      if apply && r.changed then
        ⟨some (joinSep '\n' r.new_lines ++ ['\n']), true, false, r.issues⟩
      else ⟨some raw, false, false, r.issues⟩

structure FilesResult where
  files : List (List Char × Option (List Char))
  num_processed : Nat
  num_empty : Nat
  issues : List Issue
deriving DecidableEq

/-- The file loop of process_split: every file counts as processed, issues are
concatenated in file order, and the resulting on-disk contents are returned. -/
def processFiles (remap : List Nat) (apply : Bool) :
    List (List Char × Option (List Char)) → FilesResult
  | [] => ⟨[], 0, 0, []⟩
  | f :: rest =>
    let r := processFile remap apply f
    let rs := processFiles remap apply rest
    ⟨(f.1, r.newContent) :: rs.files, rs.num_processed + 1,
      (if r.emptyFile then 1 else 0) + rs.num_empty, r.issues ++ rs.issues⟩

/-- Lexicographic order on stems by character code, the order of Python
`sorted` on distinct strings. -/
def lexLe : List Char → List Char → Bool
  | x :: xs, y :: ys => if x = y then lexLe xs ys else decide (x < y)
  | [], _ => true
  | _, _ => false

/-- The orphan-detection block of process_split (source lines 126-138): stems
of images without a label, sorted, each yield a MissingLabel issue counted in
num_missing_labels; stems of labels without an image, sorted, each yield a
MissingImage issue counted in num_missing_images.  Python's stem sets are
modelled as lists, set difference as membership filtering.  Returns
(issues, num_missing_images, num_missing_labels). -/
def scanSplit (image_stems label_stems : List (List Char)) :
    List Issue × Nat × Nat :=
  let mlStems := (image_stems.filter (fun s => !(label_stems.contains s))).mergeSort lexLe
  let miStems := (label_stems.filter (fun s => !(image_stems.contains s))).mergeSort lexLe
  (mlStems.map Issue.MissingLabel ++ miStems.map Issue.MissingImage,
    miStems.length, mlStems.length)

/-- One dataset split on disk: image stems and label files (stem, content). -/
structure SplitState where
  image_stems : List (List Char)
  label_files : List (List Char × Option (List Char))
deriving DecidableEq

structure SplitResult where
  num_processed : Nat
  num_empty : Nat
  num_missing_images : Nat
  num_missing_labels : Nat
  issues : List Issue
  new_files : List (List Char × Option (List Char))
deriving DecidableEq

/-- Model of process_split: the orphan scan followed by the file loop; orphan
issues precede per-file issues, as in the source. -/
def process_split (split : SplitState) (remap : List Nat) (apply : Bool) :
    SplitResult :=
  let scan := scanSplit split.image_stems (split.label_files.map Prod.fst)
  let pf := processFiles remap apply split.label_files
  ⟨pf.num_processed, pf.num_empty, scan.2.1, scan.2.2, scan.1 ++ pf.issues, pf.files⟩

example :
    (processFile [1, 0] true
      ("img001".data, some "1 0.5 0.5 0.2 0.2\n0 0.1 0.1 0.05 0.05".data)).newContent =
      some "0 0.5 0.5 0.2 0.2\n1 0.1 0.1 0.05 0.05\n".data := by decide

/-- YAML values that can appear under the names key of data.yaml. -/
inductive YamlVal
  | ylist (items : List YamlVal)
  | ystr (s : List Char)
  | yint (n : Int)

/-- Model of Python list() applied to the names value: a list yields its
items, a string yields its characters as one-character strings, any other
value raises TypeError (none). -/
def pyList : YamlVal → Option (List YamlVal)
  | .ylist xs => some xs
  | .ystr s => some (s.map (fun c => .ystr [c]))
  | _ => none

/-- All names must be strings: normalize_label_name calls raw.strip(), which
raises on a non-string element (none models the uncaught exception). -/
def strNames : List YamlVal → Option (List (List Char))
  | [] => some []
  | .ystr s :: rest => (strNames rest).map (s :: ·)
  | _ => none

/-- The RemapReport dataclass of the source. -/
structure RemapReport where
  old_num_classes : Nat
  new_num_classes : Nat
  old_names : List (List Char)
  new_names : List (List Char)
  remap : List Nat
  num_label_files_processed : Nat
  num_empty_label_files : Nat
  num_missing_images : Nat
  num_missing_labels : Nat
  issues : List Issue

/-- Process outcome: fatalError models the explicit sys.exit(1) calls (message
on the error stream, exit status 1); crash models an uncaught exception
(traceback on the error stream, also a nonzero exit); completed models normal
termination with exit status 0. -/
inductive RunOutcome
  | fatalError
  | crash
  | completed (report : RemapReport)

/-- The dataset directory on disk: the manifest (none = data.yaml missing;
some none = names key absent), the backup directory existence flag, and the
three splits. -/
structure Disk where
  dataYaml : Option (Option YamlVal)
  backupExists : Bool
  train : SplitState
  valid : SplitState
  test : SplitState

/-- Model of main() (named mainRun since Lean reserves main): fatal exit when
data.yaml is missing; list() coercion of the names value (so the isinstance
guard in the source can never fire, list() having already returned a list);
fatal exit when the coerced list is empty; backup (modelled by the existence
flag) only when applying; the three splits in order with the shared remap; the
manifest rewrite only when applying. -/
def mainRun (apply : Bool) (d : Disk) : RunOutcome × Disk :=
  match d.dataYaml with
  | none => (.fatalError, d)
  | some namesField =>
    match pyList (namesField.getD (.ylist [])) with
    | none => (.crash, d)
    | some old_vals =>
      if old_vals.isEmpty then (.fatalError, d)
      else
        match strNames old_vals with
        | none => (.crash, d)
        | some old_names =>
          let bn := build_names_and_remap old_names
          let d1 := if apply then { d with backupExists := true } else d
          let rt := process_split d1.train bn.2 apply
          let rv := process_split d1.valid bn.2 apply
          let rw := process_split d1.test bn.2 apply
          let d2 := { d1 with
            train := { d1.train with label_files := rt.new_files },
            valid := { d1.valid with label_files := rv.new_files },
            test := { d1.test with label_files := rw.new_files } }
          let d3 := if apply then
              { d2 with dataYaml := some (some (.ylist (bn.1.map .ystr))) }
            else d2
          (.completed {
            old_num_classes := old_names.length,
            new_num_classes := bn.1.length,
            old_names := old_names,
            new_names := bn.1,
            remap := bn.2,
            num_label_files_processed :=
              rt.num_processed + rv.num_processed + rw.num_processed,
            num_empty_label_files := rt.num_empty + rv.num_empty + rw.num_empty,
            num_missing_images :=
              rt.num_missing_images + rv.num_missing_images + rw.num_missing_images,
            num_missing_labels :=
              rt.num_missing_labels + rv.num_missing_labels + rw.num_missing_labels,
            issues := rt.issues ++ rv.issues ++ rw.issues }, d3)

/-- Per-line outcome of the rewrite: none when the line is dropped (no tokens,
unparsable class id, or class id outside the remap table), otherwise the kept
line, whose tail tokens are exactly the source tail tokens and whose head is
the (possibly substituted) class id. -/
def lineImage (remap : List Nat) (ln : List Char) : Option (List Char) :=
  match pySplitWS (pyStrip ln) with
  | [] => none
  | p0 :: ptail =>
    match pyParseInt p0 with
    | none => none
    | some old_idx =>
      if hin : 0 ≤ old_idx ∧ old_idx.toNat < remap.length then
        if ((remap.get ⟨old_idx.toNat, hin.2⟩ : Nat) : Int) = old_idx then
          some (joinSep ' ' (p0 :: ptail))
        else some (joinSep ' ' (natToChars (remap.get ⟨old_idx.toNat, hin.2⟩) :: ptail))
      else none

/-- Whether a line's class id is remapped to a different integer (the only
thing that sets the changed flag in process_split). -/
def lineChanged (remap : List Nat) (ln : List Char) : Bool :=
  match pySplitWS (pyStrip ln) with
  | [] => false
  | p0 :: _ =>
    match pyParseInt p0 with
    | none => false
    | some old_idx =>
      if hin : 0 ≤ old_idx ∧ old_idx.toNat < remap.length then
        !(((remap.get ⟨old_idx.toNat, hin.2⟩ : Nat) : Int) == old_idx)
      else false

theorem rewriteLines_new_lines (remap : List Nat) (fname : List Char) :
    ∀ L : List (List Char),
      (rewriteLines remap fname L).new_lines = L.filterMap (lineImage remap)
  | [] => rfl
  | ln :: rest => by
      have ih := rewriteLines_new_lines remap fname rest
      rw [List.filterMap_cons]
      cases hsp : pySplitWS (pyStrip ln) with
      | nil =>
          simp only [rewriteLines, lineImage, hsp]
          exact ih
      | cons p0 ptail =>
          cases hp : pyParseInt p0 with
          | none =>
              simp only [rewriteLines, lineImage, hsp, hp]
              exact ih
          | some old_idx =>
              by_cases hin : 0 ≤ old_idx ∧ old_idx.toNat < remap.length
              · by_cases heq : ((remap.get ⟨old_idx.toNat, hin.2⟩ : Nat) : Int) = old_idx
                · simp only [rewriteLines, lineImage, hsp, hp, dif_pos hin, if_pos heq]
                  simp [ih]
                · simp only [rewriteLines, lineImage, hsp, hp, dif_pos hin, if_neg heq]
                  simp [ih]
              · simp only [rewriteLines, lineImage, hsp, hp, dif_neg hin]
                exact ih

theorem rewriteLines_changed (remap : List Nat) (fname : List Char) :
    ∀ L : List (List Char),
      (rewriteLines remap fname L).changed = L.any (lineChanged remap)
  | [] => rfl
  | ln :: rest => by
      have ih := rewriteLines_changed remap fname rest
      rw [List.any_cons]
      cases hsp : pySplitWS (pyStrip ln) with
      | nil =>
          simp only [rewriteLines, lineChanged, hsp, Bool.false_or]
          exact ih
      | cons p0 ptail =>
          cases hp : pyParseInt p0 with
          | none =>
              simp only [rewriteLines, lineChanged, hsp, hp, Bool.false_or]
              exact ih
          | some old_idx =>
              by_cases hin : 0 ≤ old_idx ∧ old_idx.toNat < remap.length
              · by_cases heq : ((remap.get ⟨old_idx.toNat, hin.2⟩ : Nat) : Int) = old_idx
                · have hbeq : (((remap.get ⟨old_idx.toNat, hin.2⟩ : Nat) : Int) == old_idx) = true :=
                    beq_iff_eq.mpr heq
                  simp only [rewriteLines, lineChanged, hsp, hp, dif_pos hin, if_pos heq,
                    hbeq, Bool.not_true, Bool.false_or]
                  exact ih
                · have hbeq : (((remap.get ⟨old_idx.toNat, hin.2⟩ : Nat) : Int) == old_idx) = false :=
                    beq_eq_false_iff_ne.mpr heq
                  simp only [rewriteLines, lineChanged, hsp, hp, dif_pos hin, if_neg heq,
                    hbeq, Bool.not_false, Bool.true_or]
              · simp only [rewriteLines, lineChanged, hsp, hp, dif_neg hin, Bool.false_or]
                exact ih

/-- C7: the label file "1 0.5 0.5 0.2 0.2\n0 0.1 0.1 0.05 0.05" processed with
remap {0:1, 1:0} in apply mode is overwritten with
"0 0.5 0.5 0.2 0.2\n1 0.1 0.1 0.05 0.05" plus a trailing newline. -/
theorem claim_C7_concrete_rewrite :
    (processFile [1, 0] true
      ("img001".data, some "1 0.5 0.5 0.2 0.2\n0 0.1 0.1 0.05 0.05".data)).newContent =
      some "0 0.5 0.5 0.2 0.2\n1 0.1 0.1 0.05 0.05\n".data ∧
    (processFile [1, 0] true
      ("img001".data, some "1 0.5 0.5 0.2 0.2\n0 0.1 0.1 0.05 0.05".data)).wrote = true := by
  decide

/-- C2 counterexample: with remap {0:1, 1:0} the file "0 0.5\nxyz 1\n1 0.7" is
overwritten, but a token-bearing line ("xyz 1", whose class id is unparsable)
is removed: three input lines carry tokens while only two lines survive,
contradicting "the only lines removed are those with no tokens at all". -/
theorem claim_C2_counterexample :
    (processFile [1, 0] true ("f".data, some "0 0.5\nxyz 1\n1 0.7".data)).wrote = true ∧
    (processFile [1, 0] true ("f".data, some "0 0.5\nxyz 1\n1 0.7".data)).newContent =
      some "1 0.5\n0 0.7\n".data ∧
    ((splitOnNl (pyStrip "0 0.5\nxyz 1\n1 0.7".data)).filter
        (fun ln => !(pySplitWS (pyStrip ln)).isEmpty)).length = 3 ∧
    (rewriteLines [1, 0] "f".data
      (splitOnNl (pyStrip "0 0.5\nxyz 1\n1 0.7".data))).new_lines.length = 2 := by
  decide

/-- C2 amended: when a label file is overwritten, the new content is exactly
the per-line image of the old lines in order: a kept line keeps its geometry
tokens unchanged and only its leading class-id token is substituted, and the
lines removed are exactly those with no tokens, an unparsable class id, or a
class id outside the remap table (lineImage is none exactly in those cases);
a file that is not overwritten keeps its content. -/
theorem claim_C2_amended_frame (remap : List Nat) (fname raw : List Char) :
    (rewriteLines remap fname (splitOnNl (pyStrip raw))).new_lines =
      (splitOnNl (pyStrip raw)).filterMap (lineImage remap) ∧
    (processFile remap true (fname, some raw)).newContent =
      (if (processFile remap true (fname, some raw)).wrote then
        some (joinSep '\n'
          ((splitOnNl (pyStrip raw)).filterMap (lineImage remap)) ++ ['\n'])
      else some raw) := by
  refine ⟨rewriteLines_new_lines remap fname _, ?_⟩
  have hnl := rewriteLines_new_lines remap fname (splitOnNl (pyStrip raw))
  by_cases hstrip : pyStrip raw = []
  · simp [processFile, hstrip]
  · cases hch : (rewriteLines remap fname (splitOnNl (pyStrip raw))).changed
    · simp [processFile, hstrip, hch]
    · simp [processFile, hstrip, hch, hnl]

/-- C10: in apply mode a readable nonempty label file is overwritten exactly
when some line's class id is remapped to a different integer; token-less,
unparsable, or unmapped lines never trigger an overwrite by themselves, and
when no class id changed the file content stays on disk unchanged. -/
theorem claim_C10_overwrite_only_on_change (remap : List Nat) (fname raw : List Char) :
    ((processFile remap true (fname, some raw)).wrote =
      (if pyStrip raw = [] then false
        else (splitOnNl (pyStrip raw)).any (lineChanged remap))) ∧
    ((splitOnNl (pyStrip raw)).any (lineChanged remap) = false →
      (processFile remap true (fname, some raw)).newContent = some raw) := by
  have hch := rewriteLines_changed remap fname (splitOnNl (pyStrip raw))
  constructor
  · by_cases hstrip : pyStrip raw = []
    · simp [processFile, hstrip]
    · cases hc : (rewriteLines remap fname (splitOnNl (pyStrip raw))).changed
      · rw [hc] at hch
        simp [processFile, hstrip, hc, ← hch]
      · rw [hc] at hch
        simp [processFile, hstrip, hc, ← hch]
  · intro hany
    by_cases hstrip : pyStrip raw = []
    · simp [processFile, hstrip]
    · have hc : (rewriteLines remap fname (splitOnNl (pyStrip raw))).changed = false := by
        rw [hch, hany]
      simp [processFile, hstrip, hc]

theorem claim_C10_overwrite_only_on_change_witness :
    (splitOnNl (pyStrip "abc 1\n0 0.5".data)).any (lineChanged [0]) = false ∧
    (processFile [0] true ("f".data, some "abc 1\n0 0.5".data)).newContent =
      some "abc 1\n0 0.5".data :=
  ⟨by decide,
    (claim_C10_overwrite_only_on_change [0] "f".data "abc 1\n0 0.5".data).2 (by decide)⟩

theorem processFiles_append (remap : List Nat) (apply : Bool) :
    ∀ (l1 l2 : List (List Char × Option (List Char))),
      processFiles remap apply (l1 ++ l2) =
        ⟨(processFiles remap apply l1).files ++ (processFiles remap apply l2).files,
         (processFiles remap apply l1).num_processed +
           (processFiles remap apply l2).num_processed,
         (processFiles remap apply l1).num_empty +
           (processFiles remap apply l2).num_empty,
         (processFiles remap apply l1).issues ++ (processFiles remap apply l2).issues⟩
  | [], l2 => by simp [processFiles]
  | f :: rest, l2 => by
      have ih := processFiles_append remap apply rest l2
      simp only [List.cons_append, processFiles, List.append_eq, ih,
        FilesResult.mk.injEq]
      refine ⟨?_, ?_, ?_, ?_⟩
      all_goals first | trivial | omega | simp

/-- C8: a file whose read fails yields exactly one ReadFailure issue for that
file, its on-disk content is untouched, it still counts as processed (and not
as empty), and the files before and after it are processed exactly as they
would be on their own: the loop continues and no sibling file is aborted. -/
theorem claim_C8_read_failure_isolated (remap : List Nat) (apply : Bool)
    (pre post : List (List Char × Option (List Char))) (fname : List Char) :
    processFiles remap apply (pre ++ (fname, none) :: post) =
      ⟨(processFiles remap apply pre).files ++
         (fname, none) :: (processFiles remap apply post).files,
       (processFiles remap apply pre).num_processed + 1 +
         (processFiles remap apply post).num_processed,
       (processFiles remap apply pre).num_empty +
         (processFiles remap apply post).num_empty,
       (processFiles remap apply pre).issues ++
         Issue.ReadFailure fname :: (processFiles remap apply post).issues⟩ := by
  rw [processFiles_append remap apply pre ((fname, none) :: post)]
  have h2 : processFiles remap apply ((fname, none) :: post) =
      ⟨(fname, none) :: (processFiles remap apply post).files,
       (processFiles remap apply post).num_processed + 1,
       (processFiles remap apply post).num_empty,
       Issue.ReadFailure fname :: (processFiles remap apply post).issues⟩ := by
    simp [processFiles, processFile]
  rw [h2]
  simp only [FilesResult.mk.injEq]
  refine ⟨?_, ?_, ?_, ?_⟩
  all_goals first | trivial | omega | simp

theorem lexLe_cons (a b : Char) (as bs : List Char) :
    lexLe (a :: as) (b :: bs) =
      if a = b then lexLe as bs else decide (a < b) := rfl

theorem lexLe_total : ∀ (a b : List Char), (lexLe a b || lexLe b a) = true
  | [], _ => by simp [lexLe]
  | _ :: _, [] => by simp [lexLe]
  | a :: as, b :: bs => by
      by_cases hab : a = b
      · subst hab
        rw [lexLe_cons, lexLe_cons, if_pos rfl, if_pos rfl]
        exact lexLe_total as bs
      · rcases lt_or_gt_of_ne hab with h | h
        · have h1 : lexLe (a :: as) (b :: bs) = true := by
            rw [lexLe_cons, if_neg hab]
            simpa using h
          simp [h1]
        · have h1 : lexLe (b :: bs) (a :: as) = true := by
            rw [lexLe_cons, if_neg (Ne.symm hab)]
            simpa using h
          simp [h1]

theorem lexLe_trans :
    ∀ (a b c : List Char), lexLe a b = true → lexLe b c = true → lexLe a c = true
  | [], _, _, _, _ => by simp [lexLe]
  | _ :: _, [], _, h, _ => by simp [lexLe] at h
  | _ :: _, _ :: _, [], _, h => by simp [lexLe] at h
  | a :: as, b :: bs, c :: cs, hab, hbc => by
      rw [lexLe_cons] at hab hbc ⊢
      by_cases h1 : a = b
      · subst h1
        rw [if_pos rfl] at hab
        by_cases h2 : a = c
        · subst h2
          rw [if_pos rfl] at hbc ⊢
          exact lexLe_trans as bs cs hab hbc
        · rw [if_neg h2] at hbc ⊢
          exact hbc
      · rw [if_neg h1] at hab
        have hlt1 : a < b := of_decide_eq_true hab
        by_cases h2 : b = c
        · subst h2
          rw [if_neg h1]
          exact hab
        · rw [if_neg h2] at hbc
          have hlt2 : b < c := of_decide_eq_true hbc
          have hlt : a < c := lt_trans hlt1 hlt2
          rw [if_neg (ne_of_lt hlt)]
          exact decide_eq_true hlt

/-- Stems of the MissingLabel issues of a report, in order. -/
def missingLabelStems (issues : List Issue) : List (List Char) :=
  issues.filterMap (fun i => match i with | .MissingLabel s => some s | _ => none)

/-- Stems of the MissingImage issues of a report, in order. -/
def missingImageStems (issues : List Issue) : List (List Char) :=
  issues.filterMap (fun i => match i with | .MissingImage s => some s | _ => none)

theorem missingLabelStems_extract (xs ys : List (List Char)) :
    missingLabelStems (xs.map Issue.MissingLabel ++ ys.map Issue.MissingImage) = xs := by
  unfold missingLabelStems
  rw [List.filterMap_append, List.filterMap_map, List.filterMap_map]
  simp [Function.comp_def]

theorem missingImageStems_extract (xs ys : List (List Char)) :
    missingImageStems (xs.map Issue.MissingLabel ++ ys.map Issue.MissingImage) = ys := by
  unfold missingImageStems
  rw [List.filterMap_append, List.filterMap_map, List.filterMap_map]
  simp [Function.comp_def]

/-- C9: orphan detection is symmetric: swapping the roles of the image-stem
and label-stem sets swaps the MissingLabel and MissingImage issue lists with
identical stems, swaps the two counts, and each stem list is sorted. -/
theorem claim_C9_orphan_symmetry (I L : List (List Char)) :
    missingImageStems (scanSplit L I).1 = missingLabelStems (scanSplit I L).1 ∧
    missingLabelStems (scanSplit L I).1 = missingImageStems (scanSplit I L).1 ∧
    (scanSplit L I).2.1 = (scanSplit I L).2.2 ∧
    (scanSplit L I).2.2 = (scanSplit I L).2.1 ∧
    List.Pairwise (fun a b => lexLe a b = true)
      (missingLabelStems (scanSplit I L).1) ∧
    List.Pairwise (fun a b => lexLe a b = true)
      (missingImageStems (scanSplit I L).1) := by
  unfold scanSplit
  simp only [missingLabelStems_extract, missingImageStems_extract]
  refine ⟨trivial, trivial, trivial, trivial, ?_, ?_⟩
  · exact List.sorted_mergeSort lexLe_trans lexLe_total _
  · exact List.sorted_mergeSort lexLe_trans lexLe_total _

theorem processFile_dry (remap : List Nat) (f : List Char × Option (List Char)) :
    (processFile remap false f).newContent = f.2 := by
  obtain ⟨fname, cont⟩ := f
  cases cont with
  | none => rfl
  | some raw =>
      by_cases hstrip : pyStrip raw = []
      · simp [processFile, hstrip]
      · simp [processFile, hstrip]

theorem processFiles_dry (remap : List Nat) :
    ∀ fs : List (List Char × Option (List Char)),
      (processFiles remap false fs).files = fs
  | [] => rfl
  | f :: rest => by
      simp only [processFiles, processFiles_dry remap rest, processFile_dry remap f]

/-- C5: a dry run (apply flag absent) leaves the disk completely unchanged:
no label file is rewritten, the backup-directory flag is untouched, and the
taxonomy manifest is untouched, regardless of how many issues are found. -/
theorem claim_C5_dry_run_no_writes (d : Disk) : (mainRun false d).2 = d := by
  cases hd : d.dataYaml with
  | none => simp [mainRun, hd]
  | some namesField =>
      cases hl : pyList (namesField.getD (.ylist [])) with
      | none => simp [mainRun, hd, hl]
      | some old_vals =>
          cases hv : old_vals.isEmpty with
          | true => simp [mainRun, hd, hl, hv]
          | false =>
              cases hs : strNames old_vals with
              | none => simp [mainRun, hd, hl, hv, hs]
              | some old_names =>
                  simp only [mainRun, hd, hl, hv, hs, Bool.false_eq_true, if_false,
                    process_split, processFiles_dry]
                  rw [← hd]

/-- C4 (evaluation at the failing input): with data.yaml present and its names
value the plain string "abc" (an invalid class list per the data model), the
run completes normally with exit status 0: list("abc") coerces the string to
three one-character class names, and the isinstance list check in the source
can never fire because list() has already returned a list.  The claim (and
the intent of the dead isinstance guard) require exit status 1 here. -/
theorem claim_C4_string_names_completes :
    ∃ r, (mainRun false
      { dataYaml := some (some (.ystr "abc".data)), backupExists := false,
        train := ⟨[], []⟩, valid := ⟨[], []⟩, test := ⟨[], []⟩ }).1 =
      RunOutcome.completed r :=
  ⟨_, rfl⟩

theorem lineChanged_range (M : Nat) (ln : List Char) :
    lineChanged (List.range M) ln = false := by
  cases hsp : pySplitWS (pyStrip ln) with
  | nil => simp [lineChanged, hsp]
  | cons p0 ptail =>
      cases hp : pyParseInt p0 with
      | none => simp [lineChanged, hsp, hp]
      | some old_idx =>
          by_cases hin : 0 ≤ old_idx ∧ old_idx.toNat < (List.range M).length
          · have hget : ((List.range M).get ⟨old_idx.toNat, hin.2⟩ : Nat) =
                old_idx.toNat := by
              simp [List.get_eq_getElem, List.getElem_range]
            have heqI : (((List.range M).get ⟨old_idx.toNat, hin.2⟩ : Nat) : Int) =
                old_idx := by
              rw [hget]
              exact Int.toNat_of_nonneg hin.1
            simp only [lineChanged, hsp, hp, dif_pos hin, heqI]
            simp
          · simp only [lineChanged, hsp, hp, dif_neg hin]

theorem processFile_range (M : Nat) (fname : List Char) (cont : Option (List Char)) :
    (processFile (List.range M) true (fname, cont)).newContent = cont := by
  cases cont with
  | none => rfl
  | some raw =>
      by_cases hstrip : pyStrip raw = []
      · simp [processFile, hstrip]
      · have hch : (rewriteLines (List.range M) fname
            (splitOnNl (pyStrip raw))).changed = false := by
          rw [rewriteLines_changed]
          simp [List.any_eq_false, lineChanged_range]
        simp [processFile, hstrip, hch]

theorem buildAux_fresh :
    ∀ (l : List (List Char)) (seen : List (List Char × Nat))
      (ns : List (List Char)) (rm : List Nat),
      (∀ x ∈ l, normalize_label_name x = x) → l.Nodup →
      (∀ x ∈ l, seen.lookup x = none) →
      (buildAux seen ns rm l).2.1 = ns ++ l ∧
      (buildAux seen ns rm l).2.2 = rm ++ (List.range l.length).map (· + ns.length)
  | [], seen, ns, rm, _, _, _ => by simp [buildAux_nil]
  | x :: rest, seen, ns, rm, hfix, hnd, hseen => by
      have hx : normalize_label_name x = x := hfix x (List.mem_cons_self _ _)
      have hlx : seen.lookup (normalize_label_name x) = none := by
        rw [hx]
        exact hseen x (List.mem_cons_self _ _)
      have hseen' : ∀ y ∈ rest,
          (seen ++ [(normalize_label_name x, ns.length)]).lookup y = none := by
        intro y hy
        rw [lookup_append_single, hseen y (List.mem_cons_of_mem _ hy)]
        have hyx : y ≠ normalize_label_name x := by
          rw [hx]
          intro hh
          subst hh
          exact (List.nodup_cons.mp hnd).1 hy
        rw [if_neg hyx]
      obtain ⟨e1, e2⟩ := buildAux_fresh rest
        (seen ++ [(normalize_label_name x, ns.length)])
        (ns ++ [normalize_label_name x]) (rm ++ [ns.length])
        (fun y hy => hfix y (List.mem_cons_of_mem _ hy))
        (List.nodup_cons.mp hnd).2 hseen'
      simp only [buildAux_cons, hlx]
      constructor
      · rw [e1, hx]
        simp
      · rw [e2]
        have hmap : (List.range rest.length).map
              (· + (ns ++ [normalize_label_name x]).length) =
            ((List.range rest.length).map Nat.succ).map (· + ns.length) := by
          rw [List.map_map]
          apply List.map_congr_left
          intro i _
          simp [Function.comp_def]
          omega
        rw [hmap]
        simp only [List.length_cons, List.range_succ_eq_map, List.map_cons,
          Nat.zero_add, List.append_assoc, List.singleton_append]

theorem build_canonical_identity (old_names : List (List Char)) :
    (build_names_and_remap (build_names_and_remap old_names).1).1 =
      (build_names_and_remap old_names).1 ∧
    (build_names_and_remap (build_names_and_remap old_names).1).2 =
      List.range (build_names_and_remap old_names).1.length := by
  obtain ⟨_, h2, h3, _⟩ := build_inv old_names
  obtain ⟨e1, e2⟩ := buildAux_fresh (build_names_and_remap old_names).1 [] [] []
    h3 h2 (fun x _ => rfl)
  constructor
  · show (buildAux [] [] [] (build_names_and_remap old_names).1).2.1 = _
    rw [e1]
    simp
  · show (buildAux [] [] [] (build_names_and_remap old_names).1).2.2 = _
    rw [e2]
    simp

/-- C1 counterexample: with the RemapTable built by buildRemap from the raw
taxonomy ["crack", "crack", "window"] (remap 0 to 0, 1 to 0, 2 to 1), the
label file "2 0.7" is rewritten to "1 0.7\n"; running the rewrite step a
second time with the SAME RemapTable overwrites the file again, producing
"0 0.7\n".  In particular 1 lies in the image of the remap but
remap(remap(2)) = 0 differs from remap(2) = 1. -/
theorem claim_C1_counterexample :
    (processFile (build_names_and_remap
        ["crack".data, "crack".data, "window".data]).2 true
      ("f".data, some "2 0.7".data)).newContent = some "1 0.7\n".data ∧
    (processFile (build_names_and_remap
        ["crack".data, "crack".data, "window".data]).2 true
      ("f".data, some "1 0.7\n".data)).wrote = true ∧
    (processFile (build_names_and_remap
        ["crack".data, "crack".data, "window".data]).2 true
      ("f".data, some "1 0.7\n".data)).newContent = some "0 0.7\n".data ∧
    (build_names_and_remap ["crack".data, "crack".data, "window".data]).2.get? 2 =
      some 1 ∧
    (build_names_and_remap ["crack".data, "crack".data, "window".data]).2.get? 1 =
      some 0 := by
  decide

/-- C1 amended: a second rewrite pass yields zero changed files when it uses
the RemapTable rebuilt from the rewritten taxonomy, which is what the program
does on a true re-run since apply mode rewrites the manifest to the canonical
names: buildRemap applied to the canonical taxonomy returns the identity table
on [0, M), and rewriting any file with the identity table never sets the
changed flag, so no file is overwritten.  (With the same RemapTable instead,
idempotence fails; see the counterexample.) -/
theorem claim_C1_amended_second_pass (old_names : List (List Char))
    (fname : List Char) (cont : Option (List Char)) :
    (build_names_and_remap (build_names_and_remap old_names).1).2 =
      List.range (build_names_and_remap old_names).1.length ∧
    (processFile (build_names_and_remap (build_names_and_remap old_names).1).2 true
      (fname, cont)).newContent = cont := by
  obtain ⟨e1, e2⟩ := build_canonical_identity old_names
  refine ⟨e2, ?_⟩
  rw [e2]
  exact processFile_range _ fname cont
